import Mathlib

/-!
Verification development for the tmedia-web client-side media browser.

This file gives a shallow embedding of the caching and resource-lifecycle
subsystem of the repository and proves properties about it:

- identity keying (src/lib/thumbnail generateCacheKey, src/lib/localCache
  LocalCacheService.getCacheKey, src/lib/urlPool URLPoolManager.generateKey);
- the blob URL pool (src/lib/urlPool URLPoolManager), modelled as an explicit
  state machine whose events are acquire and release calls, the grace-delay
  callback scheduled by releaseURL, and the periodic sweep;
- the persistent local cache (src/lib/localCache LocalCacheService), in
  particular cacheFile and cleanupCache with its LFU/LRU eviction order;
- the navigation manager (src/lib/mediaNavigation MediaNavigationManager);
- the thumbnail priority queue (src/lib/lazyLoad PriorityQueue).

JavaScript numbers that the claims restrict to natural values are modelled as
Nat, reference counts (which the code can drive below zero) as Int, epoch
millisecond clocks as Nat, ArrayBuffer values by their byteLength, and the
browser object-URL allocator by a counter threaded through the pool state
together with a list of revoked URL values.
-/

/-- Decimal digit characters, as produced by JavaScript number-to-string
conversion for a single digit value below ten.  Values of ten or more never
occur for base-ten digits; the final case is arbitrary. -/
def digitChar (d : Nat) : Char :=
  match d with
  | 0 => '0'
  | 1 => '1'
  | 2 => '2'
  | 3 => '3'
  | 4 => '4'
  | 5 => '5'
  | 6 => '6'
  | 7 => '7'
  | 8 => '8'
  | 9 => '9'
  | _ => '9'

/-- Base-ten digits of n, least significant first, computed with structural
recursion on a fuel argument so that the kernel can evaluate it on concrete
inputs.  With fuel at least n this agrees with Nat.digits 10 n. -/
def natDigitsAux : Nat → Nat → List Nat
  | 0, _ => []
  | fuel + 1, n => if n = 0 then [] else n % 10 :: natDigitsAux fuel (n / 10)

/-- Decimal rendering of a natural number, as JavaScript template-string
interpolation renders a non-negative integer: the base-ten digits, most
significant first, and the single digit 0 for zero. -/
def natStr (n : Nat) : String :=
  if n = 0 then "0" else String.mk (((natDigitsAux n n).reverse).map digitChar)

/-- Model of a MediaFile value (src/lib/types): the fields that the caching
layers consume.  The optional fields model the optional size and lastModified
of the FileSystemItem interface; lastModified is its getTime epoch-millis
value; index is the position assigned by the navigation manager. -/
structure MediaFileM where
  path : String
  name : String
  lastModified : Option Nat
  size : Option Nat
  index : Option Nat := none
deriving DecidableEq, Repr

/-- The content-identity four-tuple (path, name, modifiedTimestamp, byteSize)
of the spec, with the undefined fields collapsed to 0 exactly as every key
derivation in the code collapses them. -/
def identityTuple (mf : MediaFileM) : String × String × Nat × Nat :=
  (mf.path, mf.name, mf.lastModified.getD 0, mf.size.getD 0)

/-- Translation of generateCacheKey from src/lib/thumbnail: fileName,
lastModified and size joined by underscores. -/
def generateCacheKey (fileName : String) (lastModified : Nat) (size : Nat) : String :=
  fileName ++ "_" ++ natStr lastModified ++ "_" ++ natStr size

/-- The thumbnail cache key of a media file as every call site computes it
(MediaCard and FileGrid): generateCacheKey of name, lastModified getTime or 0,
size or 0. -/
def mediaFileThumbKey (mf : MediaFileM) : String :=
  generateCacheKey mf.name (mf.lastModified.getD 0) (mf.size.getD 0)

namespace LocalCacheService

/-- Translation of LocalCacheService.getCacheKey from src/lib/localCache:
path, name, lastModified getTime or 0, and size or 0 joined by
underscores. -/
def getCacheKey (mf : MediaFileM) : String :=
  mf.path ++ "_" ++ mf.name ++ "_" ++ natStr (mf.lastModified.getD 0)
    ++ "_" ++ natStr (mf.size.getD 0)

end LocalCacheService

namespace URLPoolManager

/-- Translation of URLPoolManager.generateKey from src/lib/urlPool: path,
name and lastModified getTime or 0 joined by underscores.  Note that unlike
the other two key functions it does not mention the file size. -/
def generateKey (mf : MediaFileM) : String :=
  mf.path ++ "_" ++ mf.name ++ "_" ++ natStr (mf.lastModified.getD 0)

/-- An URLPoolEntry of src/lib/urlPool: the blob URL (modelled as the value
of an allocation counter), the reference count (an Int, since releaseURL
decrements without a lower bound), and the lastAccessed clock.  The file and
mediaFile back-references carry no pool logic and are omitted. -/
structure PoolEntry where
  url : Nat
  refCount : Int
  lastAccessed : Nat
deriving DecidableEq, Repr

/-- The state of the URLPoolManager: the pool map (an association list keyed
by generateKey output; the singleton manager starts empty so keys are unique,
which the theorems track explicitly), the next fresh object-URL value, and
the list of URL values revoked so far (URL.revokeObjectURL calls). -/
structure PoolState where
  pool : List (String × PoolEntry)
  nextUrl : Nat
  revoked : List Nat
deriving DecidableEq, Repr

/-- The maxAge field: thirty minutes without references before the periodic
sweep may revoke an entry. -/
def maxAge : Nat := 30 * 60 * 1000

/-- Lookup in the pool map, as this.pool.get(key). -/
def findEntry (k : String) : List (String × PoolEntry) → Option PoolEntry
  | [] => none
  | (k', e) :: rest => if k' = k then some e else findEntry k rest

/-- Update in the pool map, as this.pool.set(key, entry): replaces the entry
in place when the key is present, otherwise appends in insertion order. -/
def setEntry (k : String) (e : PoolEntry) :
    List (String × PoolEntry) → List (String × PoolEntry)
  | [] => [(k, e)]
  | (k', e') :: rest =>
    if k' = k then (k, e) :: rest else (k', e') :: setEntry k e rest

/-- Deletion from the pool map, as this.pool.delete(key). -/
def removeEntry (k : String) : List (String × PoolEntry) → List (String × PoolEntry)
  | [] => []
  | (k', e') :: rest => if k' = k then rest else (k', e') :: removeEntry k rest

/-- URLPoolManager.acquireURL at key k and clock now: reuse the live entry,
bumping refCount and lastAccessed, or allocate a fresh URL with refCount 1.
Returns the URL handed to the caller together with the new state. -/
def acquireURL (k : String) (now : Nat) (s : PoolState) : Nat × PoolState :=
  match findEntry k s.pool with
  | some e =>
    (e.url,
      { s with pool := setEntry k { e with refCount := e.refCount + 1, lastAccessed := now } s.pool })
  | none =>
    (s.nextUrl,
      { pool := setEntry k { url := s.nextUrl, refCount := 1, lastAccessed := now } s.pool,
        nextUrl := s.nextUrl + 1,
        revoked := s.revoked })

/-- URLPoolManager.releaseURL at key k and clock now: a release for a key
with no entry only logs a warning and changes nothing; otherwise refCount is
decremented and lastAccessed updated.  The setTimeout this method schedules
when refCount reaches zero is modelled by the separate graceFire event. -/
def releaseURL (k : String) (now : Nat) (s : PoolState) : PoolState :=
  match findEntry k s.pool with
  | none => s
  | some e =>
    { s with pool := setEntry k { e with refCount := e.refCount - 1, lastAccessed := now } s.pool }

/-- URLPoolManager.forceReleaseURL: revoke the object URL of the entry and
delete it from the pool. -/
def forceReleaseURL (k : String) (s : PoolState) : PoolState :=
  match findEntry k s.pool with
  | none => s
  | some e => { s with pool := removeEntry k s.pool, revoked := s.revoked ++ [e.url] }

/-- The body of the setTimeout callback scheduled by releaseURL, run at clock
now: re-reads the entry, and only when refCount is still at most zero and
more than 100 milliseconds have passed since the last access does it force
the release; otherwise it does nothing and does not reschedule itself. -/
def graceFire (k : String) (now : Nat) (s : PoolState) : PoolState :=
  match findEntry k s.pool with
  | none => s
  | some e =>
    if e.refCount ≤ 0 then
      if 100 < now - e.lastAccessed then forceReleaseURL k s else s
    else s

/-- URLPoolManager.cleanupExpiredURLs at clock now (the periodic sweep):
collect the keys of entries with no references that are older than maxAge,
then force-release each of them. -/
def cleanupExpiredURLs (now : Nat) (s : PoolState) : PoolState :=
  let expiredKeys :=
    (s.pool.filter fun p =>
      decide (p.2.refCount ≤ 0) && decide (maxAge < now - p.2.lastAccessed)).map Prod.fst
  expiredKeys.foldl (fun s' k => forceReleaseURL k s') s

/-- The events interleavable on the pool: acquire and release calls, the
grace-delay callback of a release, and the periodic sweep, each stamped with
the clock value at which it runs. -/
inductive PoolEvent where
  | acquire (k : String) (now : Nat)
  | release (k : String) (now : Nat)
  | graceTimer (k : String) (now : Nat)
  | sweep (now : Nat)
deriving DecidableEq, Repr

/-- The timer-driven events: grace-delay callbacks and sweep passes. -/
def PoolEvent.isTimer : PoolEvent → Bool
  | .graceTimer _ _ => true
  | .sweep _ => true
  | _ => false

/-- One event applied to the pool state. -/
def stepPool (ev : PoolEvent) (s : PoolState) : PoolState :=
  match ev with
  | .acquire k now => (acquireURL k now s).2
  | .release k now => releaseURL k now s
  | .graceTimer k now => graceFire k now s
  | .sweep now => cleanupExpiredURLs now s

/-- A sequence of events applied in order. -/
def runPool (evs : List PoolEvent) (s : PoolState) : PoolState :=
  evs.foldl (fun s' ev => stepPool ev s') s

/-- The state of the freshly constructed URLPoolManager singleton. -/
def initPool : PoolState := { pool := [], nextUrl := 0, revoked := [] }

end URLPoolManager

/-- An ArrayBuffer modelled by its byteLength, the only part of it the
caching code inspects. -/
structure ArrayBufferM where
  byteLength : Nat
deriving DecidableEq, Repr

namespace LocalCacheService

/-- Lower-casing of a string, character by character, as toLowerCase acts on
the ASCII file names involved; written over the character list so that the
kernel can evaluate it. -/
def toLowerStr (s : String) : String :=
  String.mk (s.data.map Char.toLower)

/-- The segment of a character list after its final dot (the whole list when
no dot occurs, empty when the list ends in a dot): exactly the value of
split on dot followed by pop. -/
def lastSegmentAfterDot : List Char → List Char → List Char
  | [], acc => acc.reverse
  | c :: cs, acc =>
    if c = '.' then lastSegmentAfterDot cs []
    else lastSegmentAfterDot cs (c :: acc)

/-- Translation of LocalCacheService.getMimeType: lower-case the name, take
the segment after the final dot, and look it up in the extension table,
defaulting to application/octet-stream. -/
def getMimeType (fileName : String) : String :=
  let ext := String.mk (lastSegmentAfterDot (toLowerStr fileName).data [])
  match ext with
  | "jpg" => "image/jpeg"
  | "jpeg" => "image/jpeg"
  | "png" => "image/png"
  | "gif" => "image/gif"
  | "webp" => "image/webp"
  | "svg" => "image/svg+xml"
  | "bmp" => "image/bmp"
  | "mp4" => "video/mp4"
  | "webm" => "video/webm"
  | "ogv" => "video/ogg"
  | "mov" => "video/quicktime"
  | "avi" => "video/x-msvideo"
  | "mp3" => "audio/mpeg"
  | "wav" => "audio/wav"
  | "ogg" => "audio/ogg"
  | "flac" => "audio/flac"
  | "m4a" => "audio/mp4"
  | _ => "application/octet-stream"

/-- A CacheEntry row of the IndexedDB store of src/lib/localCache: the
derived key, the media file value, the file bytes (by length), the mime type,
the timestamp (creation or last access) and the access count. -/
structure CacheEntry where
  key : String
  mediaFile : MediaFileM
  fileData : ArrayBufferM
  mimeType : String
  timestamp : Nat
  accessCount : Nat
deriving DecidableEq, Repr

/-- The eviction comparator of cleanupCache, as an ordering relation: entry a
may stay no later than entry b when its accessCount is smaller, or equal with
a timestamp that is no later.  A stable sort by the source comparator
(accessCount difference, then timestamp difference) orders by exactly this
relation. -/
def entryBefore (a b : CacheEntry) : Prop :=
  a.accessCount < b.accessCount ∨
    (a.accessCount = b.accessCount ∧ a.timestamp ≤ b.timestamp)

instance : DecidableRel entryBefore := fun a b => by
  unfold entryBefore; exact inferInstance

instance : IsTotal CacheEntry entryBefore :=
  ⟨by intro a b; unfold entryBefore; omega⟩

instance : IsTrans CacheEntry entryBefore :=
  ⟨by intro a b c; unfold entryBefore; omega⟩

/-- Total byte size of a list of entries, as the reduce over
entry.fileData.byteLength in cleanupCache and getCacheSize. -/
def totalBytes (entries : List CacheEntry) : Nat :=
  (entries.map fun e => e.fileData.byteLength).sum

/-- The size-overflow loop of cleanupCache: while sizeToDelete stays positive
walk the sorted entries, subtracting each byteLength and raising deleteCount
to one past the current position. -/
def evictLoop : List CacheEntry → Int → Nat → Nat → Nat
  | [], _, _, dc => dc
  | e :: rest, sizeToDelete, i, dc =>
    if 0 < sizeToDelete then
      evictLoop rest (sizeToDelete - e.fileData.byteLength) (i + 1) (max dc (i + 1))
    else dc

/-- Deletion of the chosen eviction candidates from the store, by key, as the
delete transaction of cleanupCache. -/
def removeKeys (doomed : List CacheEntry) (entries : List CacheEntry) : List CacheEntry :=
  entries.filter fun e => !((doomed.map fun d => d.key).contains e.key)

/-- Translation of LocalCacheService.cleanupCache over the store snapshot
(getAll returns the rows in key order, which is how the store list is kept):
when the item count exceeds maxItems or the total bytes exceed maxCacheSize,
stable-sort by (accessCount ascending, timestamp ascending), compute how many
of the least-used entries to drop — at least down to maxItems, and when bytes
overflow also down to 80 percent of maxCacheSize, the source constant 0.8 *
maxCacheSize rendered here as maxCacheSize * 8 / 10, exact for the default
100 MB configuration — and delete that prefix of the sorted order. -/
def cleanupCache (maxItems maxCacheSize : Nat) (entries : List CacheEntry) : List CacheEntry :=
  let currentSize := totalBytes entries
  if entries.length > maxItems ∨ currentSize > maxCacheSize then
    let sorted := List.insertionSort entryBefore entries
    let baseCount := entries.length - maxItems
    let deleteCount :=
      if currentSize > maxCacheSize then
        evictLoop sorted ((currentSize : Int) - (maxCacheSize * 8) / 10) 0 baseCount
      else baseCount
    removeKeys (sorted.take deleteCount) entries
  else entries

/-- Lexicographic comparison of character lists, the code-unit string order
IndexedDB uses for its keys, written so that the kernel can evaluate it. -/
def charListLt : List Char → List Char → Bool
  | [], [] => false
  | [], _ :: _ => true
  | _ :: _, [] => false
  | a :: as, b :: bs => if a < b then true else if b < a then false else charListLt as bs

/-- store.put of a row into the IndexedDB object store: replace the row with
the same key or insert preserving ascending key order. -/
def putEntry (e : CacheEntry) : List CacheEntry → List CacheEntry
  | [] => [e]
  | x :: xs =>
    if charListLt e.key.data x.key.data then e :: x :: xs
    else if e.key = x.key then e :: xs
    else x :: putEntry e xs

/-- The two shapes of a cacheFile result: a URL backed by a persisted store
row, or a transient caller-managed URL created directly from the file without
persisting it (the over-ceiling and failure paths). Both carry a usable url
together with its release closure in the source. -/
inductive CacheFileOutcome where
  | cached
  | transient
deriving DecidableEq, Repr

/-- Translation of LocalCacheService.cacheFile: derive the key and mime type,
read the bytes, and when byteLength exceeds the five-megabyte per-item
ceiling return a transient URL leaving the store untouched; otherwise put the
row with accessCount 1 and run cleanupCache. -/
def cacheFile (mf : MediaFileM) (fileBuf : ArrayBufferM) (now : Nat)
    (maxItems maxCacheSize : Nat) (store : List CacheEntry) :
    CacheFileOutcome × List CacheEntry :=
  let key := getCacheKey mf
  let mime := getMimeType mf.name
  if fileBuf.byteLength > 5 * 1024 * 1024 then
    (CacheFileOutcome.transient, store)
  else
    let entry : CacheEntry :=
      { key := key, mediaFile := mf, fileData := fileBuf, mimeType := mime,
        timestamp := now, accessCount := 1 }
    (CacheFileOutcome.cached, cleanupCache maxItems maxCacheSize (putEntry entry store))

end LocalCacheService

namespace MediaNavigationManager

/-- The mutable state of MediaNavigationManager from src/lib/mediaNavigation:
the media list and the current index, which the source keeps as a JavaScript
number that is either -1 or a list position. -/
structure NavState where
  mediaList : List MediaFileM
  currentIndex : Int
deriving DecidableEq, Repr

/-- Translation of setMediaList: store the list with each element given its
position in the index field, then reset currentIndex to -1 when it is out of
range of the new list. -/
def setMediaList (l : List MediaFileM) (s : NavState) : NavState :=
  let indexed := l.enum.map fun p => { p.2 with index := some p.1 }
  if (indexed.length : Int) ≤ s.currentIndex then
    { mediaList := indexed, currentIndex := -1 }
  else
    { mediaList := indexed, currentIndex := s.currentIndex }

/-- The findIndex call of setCurrentMedia: first position whose name and path
both match. -/
def findMediaIndex (m : MediaFileM) : List MediaFileM → Option Nat
  | [] => none
  | x :: xs =>
    if x.name = m.name ∧ x.path = m.path then some 0
    else (findMediaIndex m xs).map (· + 1)

/-- Translation of setCurrentMedia: locate the media by name and path and
set the cursor only when found. -/
def setCurrentMedia (m : MediaFileM) (s : NavState) : NavState :=
  match findMediaIndex m s.mediaList with
  | some i => { s with currentIndex := (i : Int) }
  | none => s

/-- Translation of setCurrentIndex: accept only an in-range index. -/
def setCurrentIndex (i : Int) (s : NavState) : NavState :=
  if 0 ≤ i ∧ i < (s.mediaList.length : Int) then { s with currentIndex := i } else s

/-- Translation of canGoNext. -/
def canGoNext (s : NavState) : Bool :=
  decide (0 ≤ s.currentIndex) &&
    decide (s.currentIndex < (s.mediaList.length : Int) - 1) &&
    decide (0 < s.mediaList.length)

/-- Translation of canGoPrevious. -/
def canGoPrevious (s : NavState) : Bool :=
  decide (0 < s.currentIndex) && decide (0 < s.mediaList.length)

/-- Translation of goToNext: when movement is possible advance the cursor and
return the element now under it, otherwise return none and leave the state
untouched. -/
def goToNext (s : NavState) : Option MediaFileM × NavState :=
  if canGoNext s then
    let i := s.currentIndex + 1
    (s.mediaList.get? i.toNat, { s with currentIndex := i })
  else (none, s)

/-- Translation of goToPrevious, symmetric to goToNext. -/
def goToPrevious (s : NavState) : Option MediaFileM × NavState :=
  if canGoPrevious s then
    let i := s.currentIndex - 1
    (s.mediaList.get? i.toNat, { s with currentIndex := i })
  else (none, s)

/-- Translation of reset. -/
def reset (_ : NavState) : NavState := { mediaList := [], currentIndex := -1 }

/-- The cursor invariant of the spec: -1 (unset) or a valid list index. -/
def navInv (s : NavState) : Prop :=
  s.currentIndex = -1 ∨ (0 ≤ s.currentIndex ∧ s.currentIndex < (s.mediaList.length : Int))

end MediaNavigationManager

/-- An item of the thumbnail PriorityQueue of src/lib/lazyLoad, pairing the
queued value with its numeric priority. -/
structure PQItem (α : Type) where
  item : α
  priority : Int
deriving DecidableEq, Repr

namespace PriorityQueue

/-- Translation of PriorityQueue.enqueue: splice the new item in front of the
first queued item of strictly smaller priority, or push it to the back.  The
method never inspects the queued items themselves. -/
def enqueue {α : Type} (item : α) (priority : Int) :
    List (PQItem α) → List (PQItem α)
  | [] => [{ item := item, priority := priority }]
  | y :: ys =>
    if priority > y.priority then { item := item, priority := priority } :: y :: ys
    else y :: enqueue item priority ys

/-- Translation of PriorityQueue.dequeue: shift the front item. -/
def dequeue {α : Type} : List (PQItem α) → Option α × List (PQItem α)
  | [] => (none, [])
  | y :: ys => (some y.item, ys)

end PriorityQueue

lemma natDigitsAux_eq_digits : ∀ (fuel n : Nat), n ≤ fuel →
    natDigitsAux fuel n = Nat.digits 10 n := by
  intro fuel
  induction fuel with
  | zero =>
    intro n hn
    have : n = 0 := Nat.le_zero.mp hn
    simp [natDigitsAux, this]
  | succ f ih =>
    intro n hn
    by_cases h : n = 0
    · simp [natDigitsAux, h]
    · have hpos : 0 < n := Nat.pos_of_ne_zero h
      have hdiv : n / 10 ≤ f := by
        have : n / 10 < n := Nat.div_lt_self hpos (by norm_num)
        omega
      rw [natDigitsAux, if_neg h, ih (n / 10) hdiv,
        Nat.digits_def' (by norm_num : 1 < 10) hpos]

lemma natStr_eq_digits (n : Nat) :
    natStr n = if n = 0 then "0"
      else String.mk (((Nat.digits 10 n).reverse).map digitChar) := by
  unfold natStr
  rw [natDigitsAux_eq_digits n n le_rfl]

lemma digitChar_lt_inj : ∀ a < 10, ∀ b < 10, digitChar a = digitChar b → a = b := by
  decide

lemma digitChar_ne_underscore : ∀ d < 10, digitChar d ≠ '_' := by
  decide

lemma natStr_no_underscore (n : Nat) : '_' ∉ (natStr n).data := by
  rw [natStr_eq_digits]
  by_cases h : n = 0
  · simp [h]
  · simp only [h, if_false]
    intro hmem
    rcases List.mem_map.mp hmem with ⟨d, hd, hchar⟩
    have hd10 : d < 10 :=
      Nat.digits_lt_base (by norm_num) (List.mem_reverse.mp hd)
    exact digitChar_ne_underscore d hd10 hchar

lemma digit_list_map_inj :
    ∀ (l₁ l₂ : List Nat), (∀ x ∈ l₁, x < 10) → (∀ x ∈ l₂, x < 10) →
      l₁.map digitChar = l₂.map digitChar → l₁ = l₂ := by
  intro l₁
  induction l₁ with
  | nil =>
    intro l₂ _ _ h
    cases l₂ with
    | nil => rfl
    | cons b bs => simp at h
  | cons a as ih =>
    intro l₂ h₁ h₂ h
    cases l₂ with
    | nil => simp at h
    | cons b bs =>
      simp only [List.map_cons, List.cons.injEq] at h
      have ha : a < 10 := h₁ a (List.mem_cons_self a as)
      have hb : b < 10 := h₂ b (List.mem_cons_self b bs)
      have hab : a = b := digitChar_lt_inj a ha b hb h.1
      have hrest : as = bs := by
        refine ih bs (fun x hx => h₁ x (List.mem_cons_of_mem a hx))
          (fun x hx => h₂ x (List.mem_cons_of_mem b hx)) h.2
      rw [hab, hrest]

lemma natStr_inj : ∀ m n : Nat, natStr m = natStr n → m = n := by
  have digitsEq : ∀ p q : Nat, p ≠ 0 → q ≠ 0 → natStr p = natStr q → p = q := by
    intro p q hp hq h
    rw [natStr_eq_digits, natStr_eq_digits, if_neg hp, if_neg hq] at h
    have hdata := congrArg String.data h
    simp only [String.data] at hdata
    have hrev : (Nat.digits 10 p).reverse = (Nat.digits 10 q).reverse := by
      refine digit_list_map_inj _ _ ?_ ?_ hdata
      · intro x hx
        exact Nat.digits_lt_base (by norm_num) (List.mem_reverse.mp hx)
      · intro x hx
        exact Nat.digits_lt_base (by norm_num) (List.mem_reverse.mp hx)
    have hdig : Nat.digits 10 p = Nat.digits 10 q := by
      have := congrArg List.reverse hrev
      simpa using this
    have := congrArg (Nat.ofDigits 10) hdig
    simpa [Nat.ofDigits_digits] using this
  have zeroCase : ∀ q : Nat, q ≠ 0 → natStr 0 ≠ natStr q := by
    intro q hq h
    rw [natStr_eq_digits, natStr_eq_digits, if_pos rfl, if_neg hq] at h
    have hdata := congrArg String.data h
    have h0 : ("0" : String).data = ['0'] := rfl
    rw [h0] at hdata
    have hne : Nat.digits 10 q ≠ [] := Nat.digits_ne_nil_iff_ne_zero.mpr hq
    rcases hq' : (Nat.digits 10 q).reverse with _ | ⟨d, rest⟩
    · exact hne (by simpa using congrArg List.reverse hq')
    · rw [hq'] at hdata
      simp only [List.map_cons, String.data] at hdata
      have hrest : rest = [] := by
        cases rest with
        | nil => rfl
        | cons e es =>
          have hlen := congrArg List.length hdata
          simp at hlen
      rw [hrest] at hdata
      simp only [List.map_nil, List.cons.injEq] at hdata
      have hd10 : d < 10 := by
        have hmem : d ∈ (Nat.digits 10 q).reverse := by rw [hq', hrest]; simp
        exact Nat.digits_lt_base (by norm_num) (List.mem_reverse.mp hmem)
      have hd0 : d = 0 :=
        digitChar_lt_inj d hd10 0 (by norm_num) (hdata.1.symm.trans rfl)
      have : Nat.digits 10 q = [0] := by
        have := congrArg List.reverse hq'
        simpa [hrest, hd0] using this
      have hq0 : q = 0 := by
        have := congrArg (Nat.ofDigits 10) this
        simpa [Nat.ofDigits_digits, Nat.ofDigits] using this
      exact hq hq0
  intro m n h
  by_cases hm : m = 0 <;> by_cases hn : n = 0
  · rw [hm, hn]
  · exact absurd (hm ▸ h) (zeroCase n hn)
  · exact absurd (hn ▸ h.symm) (zeroCase m hm)
  · exact digitsEq m n hm hn h

/-- Splitting a character list at the final separator: two decompositions
around a separator whose right part avoids the separator agree. -/
lemma split_at_last_sep :
    ∀ (u u' b b' : List Char), '_' ∉ b → '_' ∉ b' →
      u ++ '_' :: b = u' ++ '_' :: b' → u = u' ∧ b = b' := by
  intro u
  induction u with
  | nil =>
    intro u' b b' hb hb' h
    cases u' with
    | nil =>
      simp only [List.nil_append, List.cons.injEq] at h
      exact ⟨rfl, h.2⟩
    | cons c cs =>
      simp only [List.nil_append, List.cons_append, List.cons.injEq] at h
      exact absurd (h.2 ▸ List.mem_append_right cs (List.mem_cons_self '_' b'))
        hb
  | cons c cs ih =>
    intro u' b b' hb hb' h
    cases u' with
    | nil =>
      simp only [List.nil_append, List.cons_append, List.cons.injEq] at h
      exact absurd
        (h.2.symm ▸ List.mem_append_right cs (List.mem_cons_self '_' b)) hb'
    | cons c' cs' =>
      simp only [List.cons_append, List.cons.injEq] at h
      rcases ih cs' b b' hb hb' h.2 with ⟨h1, h2⟩
      exact ⟨by rw [h.1, h1], h2⟩

lemma string_of_data_eq {s t : String} (h : s.data = t.data) : s = t := by
  cases s; cases t; exact congrArg String.mk h

/-- C8.  The thumbnail identity function generateCacheKey is deterministic,
and injective on triples whose lastModified and size are natural numbers:
two triples yield the same key only when they are componentwise equal. -/
theorem generateCacheKey_pure_and_injective :
    (∀ (f : String) (l s : Nat), generateCacheKey f l s = generateCacheKey f l s) ∧
    (∀ (f₁ : String) (l₁ s₁ : Nat) (f₂ : String) (l₂ s₂ : Nat),
      generateCacheKey f₁ l₁ s₁ = generateCacheKey f₂ l₂ s₂ →
      f₁ = f₂ ∧ l₁ = l₂ ∧ s₁ = s₂) := by
  constructor
  · intro f l s; rfl
  · intro f₁ l₁ s₁ f₂ l₂ s₂ h
    have hdata := congrArg String.data h
    have hus : ("_" : String).data = ['_'] := rfl
    simp only [generateCacheKey, String.data_append, hus, List.append_assoc,
      List.singleton_append] at hdata
    have h₁ := split_at_last_sep
      (f₁.data ++ '_' :: (natStr l₁).data) (f₂.data ++ '_' :: (natStr l₂).data)
      (natStr s₁).data (natStr s₂).data
      (natStr_no_underscore s₁) (natStr_no_underscore s₂)
      (by simpa [List.append_assoc] using hdata)
    have h₂ := split_at_last_sep f₁.data f₂.data (natStr l₁).data (natStr l₂).data
      (natStr_no_underscore l₁) (natStr_no_underscore l₂) h₁.1
    refine ⟨string_of_data_eq h₂.1, ?_, ?_⟩
    · exact natStr_inj l₁ l₂ (string_of_data_eq h₂.2)
    · exact natStr_inj s₁ s₂ (string_of_data_eq h₁.2)

/-- Witness for C8: the theorem applied at the concrete triple of the
basic-roundtrip scenario, name a.jpg, time 1000, size 500000. -/
theorem generateCacheKey_pure_and_injective_witness :
    "a.jpg" = "a.jpg" ∧ (1000 : Nat) = 1000 ∧ (500000 : Nat) = 500000 :=
  generateCacheKey_pure_and_injective.2 "a.jpg" 1000 500000 "a.jpg" 1000 500000 rfl

/-- Counterexample for C7.  The three caching layers do not derive their keys
by one function of the identity four-tuple: the URL pool key ignores byteSize,
the thumbnail key ignores path, and the underscore-joined persistent-store key
collides for distinct (path, name) splits, so key equality does not coincide
with identity-tuple equality. -/
theorem cacheKey_layers_disagree_counterexample :
    (URLPoolManager.generateKey ⟨"p", "n", some 5, some 1, none⟩ =
       URLPoolManager.generateKey ⟨"p", "n", some 5, some 2, none⟩ ∧
     identityTuple ⟨"p", "n", some 5, some 1, none⟩ ≠
       identityTuple ⟨"p", "n", some 5, some 2, none⟩) ∧
    (mediaFileThumbKey ⟨"p1", "n", some 5, some 1, none⟩ =
       mediaFileThumbKey ⟨"p2", "n", some 5, some 1, none⟩ ∧
     identityTuple ⟨"p1", "n", some 5, some 1, none⟩ ≠
       identityTuple ⟨"p2", "n", some 5, some 1, none⟩) ∧
    (LocalCacheService.getCacheKey ⟨"a", "b_c", some 5, some 1, none⟩ =
       LocalCacheService.getCacheKey ⟨"a_b", "c", some 5, some 1, none⟩ ∧
     identityTuple ⟨"a", "b_c", some 5, some 1, none⟩ ≠
       identityTuple ⟨"a_b", "c", some 5, some 1, none⟩) := by
  refine ⟨⟨?_, ?_⟩, ⟨?_, ?_⟩, ⟨?_, ?_⟩⟩ <;> decide

/-- C7 amended.  Files with equal identity tuples receive equal keys in every
caching layer (persistent store, URL pool and thumbnail cache), so one
identity joins across the layers in the forward direction; the layers do not,
however, compute the same key function, and key equality does not imply tuple
equality. -/
theorem cacheKey_layers_agree_on_identity (f₁ f₂ : MediaFileM)
    (h : identityTuple f₁ = identityTuple f₂) :
    LocalCacheService.getCacheKey f₁ = LocalCacheService.getCacheKey f₂ ∧
    URLPoolManager.generateKey f₁ = URLPoolManager.generateKey f₂ ∧
    mediaFileThumbKey f₁ = mediaFileThumbKey f₂ := by
  simp only [identityTuple, Prod.mk.injEq] at h
  obtain ⟨hp, hn, hl, hs⟩ := h
  refine ⟨?_, ?_, ?_⟩ <;>
    simp [LocalCacheService.getCacheKey, URLPoolManager.generateKey,
      mediaFileThumbKey, generateCacheKey, hp, hn, hl, hs]

/-- Witness for the amended C7 at two concrete files that differ only in the
transient index field, which is no part of the identity. -/
theorem cacheKey_layers_agree_on_identity_witness :
    LocalCacheService.getCacheKey ⟨"d", "a.jpg", some 1000, some 500000, none⟩ =
      LocalCacheService.getCacheKey ⟨"d", "a.jpg", some 1000, some 500000, some 3⟩ ∧
    URLPoolManager.generateKey ⟨"d", "a.jpg", some 1000, some 500000, none⟩ =
      URLPoolManager.generateKey ⟨"d", "a.jpg", some 1000, some 500000, some 3⟩ ∧
    mediaFileThumbKey ⟨"d", "a.jpg", some 1000, some 500000, none⟩ =
      mediaFileThumbKey ⟨"d", "a.jpg", some 1000, some 500000, some 3⟩ :=
  cacheKey_layers_agree_on_identity _ _ (by decide)

namespace URLPoolManager

lemma findEntry_setEntry_self (k : String) (e : PoolEntry) (p : List (String × PoolEntry)) :
    findEntry k (setEntry k e p) = some e := by
  induction p with
  | nil => simp [setEntry, findEntry]
  | cons x rest ih =>
    obtain ⟨k', e'⟩ := x
    by_cases h : k' = k
    · simp [setEntry, h, findEntry]
    · simp [setEntry, h, findEntry, ih]

lemma findEntry_setEntry_ne {k k' : String} (h : k ≠ k') (e : PoolEntry)
    (p : List (String × PoolEntry)) :
    findEntry k (setEntry k' e p) = findEntry k p := by
  have h' : k' ≠ k := Ne.symm h
  induction p with
  | nil => simp [setEntry, findEntry, h']
  | cons x rest ih =>
    obtain ⟨k₀, e₀⟩ := x
    by_cases h0 : k₀ = k'
    · simp [setEntry, findEntry, h0, h']
    · by_cases h1 : k₀ = k <;> simp [setEntry, findEntry, h0, h1, h, ih]

lemma findEntry_removeEntry_ne {k k' : String} (h : k ≠ k')
    (p : List (String × PoolEntry)) :
    findEntry k (removeEntry k' p) = findEntry k p := by
  have h' : k' ≠ k := Ne.symm h
  induction p with
  | nil => simp [removeEntry]
  | cons x rest ih =>
    obtain ⟨k₀, e₀⟩ := x
    by_cases h0 : k₀ = k'
    · simp [removeEntry, findEntry, h0, h']
    · by_cases h1 : k₀ = k <;> simp [removeEntry, findEntry, h0, h1, h, ih]

lemma findEntry_none_iff (k : String) (p : List (String × PoolEntry)) :
    findEntry k p = none ↔ k ∉ p.map Prod.fst := by
  induction p with
  | nil => simp [findEntry]
  | cons x rest ih =>
    obtain ⟨k₀, e₀⟩ := x
    by_cases h0 : k₀ = k
    · simp [findEntry, h0]
    · simp [findEntry, h0, ih, Ne.symm h0]

lemma findEntry_mem :
    ∀ (p : List (String × PoolEntry)) (k : String) (e : PoolEntry),
      findEntry k p = some e → (k, e) ∈ p := by
  intro p
  induction p with
  | nil => intro k e h; simp [findEntry] at h
  | cons x rest ih =>
    intro k e h
    obtain ⟨k₀, e₀⟩ := x
    by_cases h0 : k₀ = k
    · subst h0
      simp [findEntry] at h
      subst h
      exact List.mem_cons_self _ _
    · simp [findEntry, h0] at h
      exact List.mem_cons_of_mem _ (ih k e h)

lemma findEntry_unique :
    ∀ (p : List (String × PoolEntry)) (k : String) (e : PoolEntry),
      (p.map Prod.fst).Nodup → findEntry k p = some e →
      ∀ e', (k, e') ∈ p → e' = e := by
  intro p
  induction p with
  | nil => intro k e _ hf; simp [findEntry] at hf
  | cons x rest ih =>
    intro k e hnd hf e' he'
    obtain ⟨k₀, e₀⟩ := x
    simp only [List.map_cons, List.nodup_cons] at hnd
    by_cases h0 : k₀ = k
    · subst h0
      simp [findEntry] at hf
      rcases List.mem_cons.mp he' with heq | hmem
      · have : e' = e₀ := congrArg Prod.snd heq
        rw [this, hf]
      · exact absurd (List.mem_map_of_mem Prod.fst hmem) hnd.1
    · simp [findEntry, h0] at hf
      rcases List.mem_cons.mp he' with heq | hmem
      · exact absurd (congrArg Prod.fst heq).symm h0
      · exact ih k e hnd.2 hf e' hmem

lemma keys_setEntry_found :
    ∀ (p : List (String × PoolEntry)) (k : String) (e e₀ : PoolEntry),
      findEntry k p = some e₀ →
      (setEntry k e p).map Prod.fst = p.map Prod.fst := by
  intro p
  induction p with
  | nil => intro k e e₀ hf; simp [findEntry] at hf
  | cons x rest ih =>
    intro k e e₀ hf
    obtain ⟨k₁, e₁⟩ := x
    by_cases h0 : k₁ = k
    · subst h0
      simp [setEntry]
    · simp [findEntry, h0] at hf
      simp [setEntry, h0, ih k e e₀ hf]

lemma keys_setEntry_none :
    ∀ (p : List (String × PoolEntry)) (k : String) (e : PoolEntry),
      findEntry k p = none →
      (setEntry k e p).map Prod.fst = p.map Prod.fst ++ [k] := by
  intro p
  induction p with
  | nil => intro k e _; simp [setEntry]
  | cons x rest ih =>
    intro k e hf
    obtain ⟨k₁, e₁⟩ := x
    by_cases h0 : k₁ = k
    · subst h0
      simp [findEntry] at hf
    · simp [findEntry, h0] at hf
      simp [setEntry, h0, ih k e hf]

lemma removeEntry_sublist (k : String) (p : List (String × PoolEntry)) :
    (removeEntry k p).Sublist p := by
  induction p with
  | nil => simp [removeEntry]
  | cons x rest ih =>
    obtain ⟨k₀, e₀⟩ := x
    by_cases h0 : k₀ = k
    · simp only [removeEntry, h0, if_pos]
      exact List.sublist_cons_self _ _
    · simp only [removeEntry, h0, if_false]
      exact List.Sublist.cons₂ (k₀, e₀) ih

lemma forceReleaseURL_findEntry_ne {k k' : String} (h : k ≠ k') (s : PoolState) :
    findEntry k (forceReleaseURL k' s).pool = findEntry k s.pool := by
  rcases hf : findEntry k' s.pool with _ | e
  · simp [forceReleaseURL, hf]
  · simp only [forceReleaseURL, hf]
    exact findEntry_removeEntry_ne h s.pool

lemma forceReleaseURL_nodup {s : PoolState} (k : String)
    (h : (s.pool.map Prod.fst).Nodup) :
    ((forceReleaseURL k s).pool.map Prod.fst).Nodup := by
  rcases hf : findEntry k s.pool with _ | e
  · simpa [forceReleaseURL, hf] using h
  · simp only [forceReleaseURL, hf]
    exact ((removeEntry_sublist k s.pool).map Prod.fst).nodup h

lemma foldl_force_nodup (ks : List String) :
    ∀ s : PoolState, (s.pool.map Prod.fst).Nodup →
      (((ks.foldl (fun s' k => forceReleaseURL k s') s).pool).map Prod.fst).Nodup := by
  induction ks with
  | nil => intro s h; exact h
  | cons k ks ih =>
    intro s h
    exact ih (forceReleaseURL k s) (forceReleaseURL_nodup k h)

lemma foldl_force_findEntry_not_mem (ks : List String) :
    ∀ (s : PoolState) (k : String), k ∉ ks →
      findEntry k ((ks.foldl (fun s' k' => forceReleaseURL k' s') s).pool) =
        findEntry k s.pool := by
  induction ks with
  | nil => intro s k _; rfl
  | cons k₀ ks ih =>
    intro s k hk
    have hne : k ≠ k₀ := fun h => hk (h ▸ List.mem_cons_self k₀ ks)
    have hks : k ∉ ks := fun h => hk (List.mem_cons_of_mem k₀ h)
    rw [List.foldl_cons, ih (forceReleaseURL k₀ s) k hks,
      forceReleaseURL_findEntry_ne hne]

lemma stepPool_nodup (s : PoolState) (ev : PoolEvent)
    (h : (s.pool.map Prod.fst).Nodup) :
    ((stepPool ev s).pool.map Prod.fst).Nodup := by
  cases ev with
  | acquire k now =>
    rcases hf : findEntry k s.pool with _ | e
    · have hk : k ∉ s.pool.map Prod.fst := (findEntry_none_iff k s.pool).mp hf
      simp only [stepPool, acquireURL, hf]
      rw [keys_setEntry_none s.pool k _ hf]
      simp [List.nodup_append, h, hk]
    · simp only [stepPool, acquireURL, hf]
      rw [keys_setEntry_found s.pool k _ e hf]
      exact h
  | release k now =>
    rcases hf : findEntry k s.pool with _ | e
    · simpa [stepPool, releaseURL, hf] using h
    · simp only [stepPool, releaseURL, hf]
      rw [keys_setEntry_found s.pool k _ e hf]
      exact h
  | graceTimer k now =>
    rcases hf : findEntry k s.pool with _ | e
    · simpa [stepPool, graceFire, hf] using h
    · simp only [stepPool, graceFire, hf]
      split_ifs with h1 h2
      · exact forceReleaseURL_nodup k h
      · exact h
      · exact h
  | sweep now =>
    simp only [stepPool, cleanupExpiredURLs]
    exact foldl_force_nodup _ s h

lemma stepPool_live_preserved (s : PoolState) (ev : PoolEvent) (k : String)
    (e : PoolEntry) (hnd : (s.pool.map Prod.fst).Nodup)
    (hf : findEntry k s.pool = some e) (hpos : 0 < e.refCount) :
    ∃ e', findEntry k (stepPool ev s).pool = some e' ∧ e'.url = e.url := by
  cases ev with
  | acquire k' now =>
    rcases hf' : findEntry k' s.pool with _ | e₂
    · simp only [stepPool, acquireURL, hf']
      by_cases hkk : k = k'
      · subst hkk
        rw [hf] at hf'
        simp at hf'
      · exact ⟨e, (findEntry_setEntry_ne hkk _ s.pool).trans hf, rfl⟩
    · simp only [stepPool, acquireURL, hf']
      by_cases hkk : k = k'
      · subst hkk
        rw [hf] at hf'
        obtain rfl : e = e₂ := Option.some.inj hf'
        exact ⟨_, findEntry_setEntry_self k _ s.pool, rfl⟩
      · exact ⟨e, (findEntry_setEntry_ne hkk _ s.pool).trans hf, rfl⟩
  | release k' now =>
    rcases hf' : findEntry k' s.pool with _ | e₂
    · simp only [stepPool, releaseURL, hf']
      exact ⟨e, hf, rfl⟩
    · simp only [stepPool, releaseURL, hf']
      by_cases hkk : k = k'
      · subst hkk
        rw [hf] at hf'
        obtain rfl : e = e₂ := Option.some.inj hf'
        exact ⟨_, findEntry_setEntry_self k _ s.pool, rfl⟩
      · exact ⟨e, (findEntry_setEntry_ne hkk _ s.pool).trans hf, rfl⟩
  | graceTimer k' now =>
    rcases hf' : findEntry k' s.pool with _ | e₂
    · simp only [stepPool, graceFire, hf']
      exact ⟨e, hf, rfl⟩
    · simp only [stepPool, graceFire, hf']
      by_cases hkk : k = k'
      · subst hkk
        rw [hf] at hf'
        obtain rfl : e = e₂ := Option.some.inj hf'
        rw [if_neg (by omega : ¬ e.refCount ≤ 0)]
        exact ⟨e, hf, rfl⟩
      · split_ifs with h1 h2
        · exact ⟨e, (forceReleaseURL_findEntry_ne hkk s).trans hf, rfl⟩
        · exact ⟨e, hf, rfl⟩
        · exact ⟨e, hf, rfl⟩
  | sweep now =>
    simp only [stepPool, cleanupExpiredURLs]
    have hk : k ∉
        ((s.pool.filter fun p =>
          decide (p.2.refCount ≤ 0) && decide (maxAge < now - p.2.lastAccessed)).map
            Prod.fst) := by
      intro hmem
      rcases List.mem_map.mp hmem with ⟨⟨k₁, e₁⟩, hmf, hk₁⟩
      rcases List.mem_filter.mp hmf with ⟨hmemp, hpred⟩
      have hkeq : k₁ = k := hk₁
      have hmemp' : (k, e₁) ∈ s.pool := hkeq ▸ hmemp
      have he₁ : e₁ = e := findEntry_unique s.pool k e hnd hf e₁ hmemp'
      rw [he₁] at hpred
      simp only [Bool.and_eq_true, decide_eq_true_eq] at hpred
      omega
    exact ⟨e, (foldl_force_findEntry_not_mem _ s k hk).trans hf, rfl⟩

end URLPoolManager

namespace URLPoolManager

lemma runPool_nil (s : PoolState) : runPool [] s = s := rfl

lemma runPool_cons (ev : PoolEvent) (evs : List PoolEvent) (s : PoolState) :
    runPool (ev :: evs) s = runPool evs (stepPool ev s) := rfl

lemma runPool_append (l₁ l₂ : List PoolEvent) (s : PoolState) :
    runPool (l₁ ++ l₂) s = runPool l₂ (runPool l₁ s) := by
  simp [runPool, List.foldl_append]

lemma run_acquires (k : String) :
    ∀ (ts : List Nat) (u : Nat) (n : Int) (la nu : Nat) (rv : List Nat),
      ∃ la', runPool (ts.map (PoolEvent.acquire k))
          ⟨[(k, ⟨u, n, la⟩)], nu, rv⟩
        = ⟨[(k, ⟨u, n + (ts.length : Int), la'⟩)], nu, rv⟩ := by
  intro ts
  induction ts with
  | nil =>
    intro u n la nu rv
    exact ⟨la, by simp [runPool]⟩
  | cons t ts ih =>
    intro u n la nu rv
    have hstep : stepPool (PoolEvent.acquire k t) ⟨[(k, ⟨u, n, la⟩)], nu, rv⟩
        = ⟨[(k, ⟨u, n + 1, t⟩)], nu, rv⟩ := by
      simp [stepPool, acquireURL, findEntry, setEntry]
    obtain ⟨la', hla⟩ := ih u (n + 1) t nu rv
    refine ⟨la', ?_⟩
    have harith : n + 1 + (ts.length : Int) = n + (((ts.length + 1 : Nat)) : Int) := by
      push_cast
      ring
    rw [List.map_cons, runPool_cons, hstep, hla, List.length_cons, ← harith]

lemma run_releases (k : String) :
    ∀ (ts : List Nat) (u : Nat) (n : Int) (la nu : Nat) (rv : List Nat),
      ∃ la', runPool (ts.map (PoolEvent.release k))
          ⟨[(k, ⟨u, n, la⟩)], nu, rv⟩
        = ⟨[(k, ⟨u, n - (ts.length : Int), la'⟩)], nu, rv⟩ := by
  intro ts
  induction ts with
  | nil =>
    intro u n la nu rv
    exact ⟨la, by simp [runPool]⟩
  | cons t ts ih =>
    intro u n la nu rv
    have hstep : stepPool (PoolEvent.release k t) ⟨[(k, ⟨u, n, la⟩)], nu, rv⟩
        = ⟨[(k, ⟨u, n - 1, t⟩)], nu, rv⟩ := by
      simp [stepPool, releaseURL, findEntry, setEntry]
    obtain ⟨la', hla⟩ := ih u (n - 1) t nu rv
    refine ⟨la', ?_⟩
    have harith : n - 1 - (ts.length : Int) = n - (((ts.length + 1 : Nat)) : Int) := by
      push_cast
      ring
    rw [List.map_cons, runPool_cons, hstep, hla, List.length_cons, ← harith]

lemma timer_noop (s : PoolState) (hAll : ∀ p ∈ s.pool, 0 < p.2.refCount) :
    ∀ ev : PoolEvent, ev.isTimer = true → stepPool ev s = s := by
  intro ev hev
  cases ev with
  | acquire k now => simp [PoolEvent.isTimer] at hev
  | release k now => simp [PoolEvent.isTimer] at hev
  | graceTimer k now =>
    rcases hf : findEntry k s.pool with _ | e
    · simp [stepPool, graceFire, hf]
    · have hpos : 0 < e.refCount := hAll (k, e) (findEntry_mem s.pool k e hf)
      have hne : ¬ e.refCount ≤ 0 := by omega
      simp [stepPool, graceFire, hf, hne]
  | sweep now =>
    simp only [stepPool, cleanupExpiredURLs]
    have hempty : (s.pool.filter fun p =>
        decide (p.2.refCount ≤ 0) && decide (maxAge < now - p.2.lastAccessed)) = [] := by
      rw [List.filter_eq_nil_iff]
      intro p hp
      have hpos : 0 < p.2.refCount := hAll p hp
      simp only [Bool.and_eq_true, decide_eq_true_eq, not_and]
      intro h0
      omega
    rw [hempty]
    rfl

lemma run_timers : ∀ (tr : List PoolEvent) (s : PoolState),
    (∀ ev ∈ tr, ev.isTimer = true) → (∀ p ∈ s.pool, 0 < p.2.refCount) →
    runPool tr s = s := by
  intro tr
  induction tr with
  | nil => intro s _ _; rfl
  | cons ev tr ih =>
    intro s hev hall
    rw [runPool_cons, timer_noop s hall ev (hev ev (List.mem_cons_self _ _)),
      ih s (fun e he => hev e (List.mem_cons_of_mem _ he)) hall]

/-- C1.  No revoke while referenced.  First half: a single acquire, release,
grace-callback or sweep event never removes a pool entry whose refCount is
positive, and keeps its URL: revocation always deletes the entry, so a live
entry is never revoked.  Second half: starting from the fresh pool, acquiring
one identity n+1 times and releasing it n times, and then letting any number
of grace-delay callbacks and sweep passes run at arbitrary clocks, leaves the
handle in the pool with refCount 1 and an empty revocation list. -/
theorem no_revoke_while_referenced :
    (∀ (s : PoolState) (ev : PoolEvent) (k : String) (e : PoolEntry),
        (s.pool.map Prod.fst).Nodup →
        findEntry k s.pool = some e → 0 < e.refCount →
        ∃ e', findEntry k (stepPool ev s).pool = some e' ∧ e'.url = e.url) ∧
    (∀ (k : String) (t₀ : Nat) (ts rs : List Nat) (tr : List PoolEvent),
        rs.length = ts.length →
        (∀ ev ∈ tr, ev.isTimer = true) →
        ∃ la, runPool ((t₀ :: ts).map (PoolEvent.acquire k)
              ++ rs.map (PoolEvent.release k) ++ tr) initPool
            = { pool := [(k, { url := 0, refCount := 1, lastAccessed := la })],
                nextUrl := 1, revoked := [] }) := by
  constructor
  · exact fun s ev k e => stepPool_live_preserved s ev k e
  · intro k t₀ ts rs tr hlen htr
    have hfirst : stepPool (PoolEvent.acquire k t₀) initPool
        = ⟨[(k, ⟨0, 1, t₀⟩)], 1, []⟩ := by
      simp [stepPool, acquireURL, initPool, findEntry, setEntry]
    obtain ⟨la₁, h₁⟩ := run_acquires k ts 0 1 t₀ 1 []
    obtain ⟨la₂, h₂⟩ := run_releases k rs 0 (1 + (ts.length : Int)) la₁ 1 []
    refine ⟨la₂, ?_⟩
    have harith : (1 : Int) + (ts.length : Int) - (rs.length : Int) = 1 := by
      rw [hlen]
      ring
    rw [List.map_cons, runPool_append, runPool_append, runPool_cons, hfirst,
      h₁, h₂, harith]
    refine run_timers tr _ htr ?_
    intro p hp
    simp only [List.mem_singleton] at hp
    subst hp
    norm_num

/-- Witness for C1: the single-step half applied to a pool holding a doubly
referenced entry hit by a sweep, and the trace half applied to three acquires
followed by two releases, a grace callback and a sweep. -/
theorem no_revoke_while_referenced_witness :
    (∃ e', findEntry "k" (stepPool (PoolEvent.sweep 999999999)
        ⟨[("k", ⟨7, 2, 0⟩)], 8, []⟩).pool = some e' ∧ e'.url = 7) ∧
    (∃ la, runPool (([0, 1, 2].map (PoolEvent.acquire "k"))
          ++ ([3, 4].map (PoolEvent.release "k"))
          ++ [PoolEvent.graceTimer "k" 500, PoolEvent.sweep 999999999]) initPool
        = { pool := [("k", { url := 0, refCount := 1, lastAccessed := la })],
            nextUrl := 1, revoked := [] }) := by
  constructor
  · exact no_revoke_while_referenced.1 ⟨[("k", ⟨7, 2, 0⟩)], 8, []⟩
      (PoolEvent.sweep 999999999) "k" ⟨7, 2, 0⟩ (by decide) (by decide) (by decide)
  · exact no_revoke_while_referenced.2 "k" 0 [1, 2] [3, 4]
      [PoolEvent.graceTimer "k" 500, PoolEvent.sweep 999999999] rfl (by decide)

/-- C2.  At most one live handle per identity.  First half: acquireURL on an
identity that already has a live entry returns exactly the stored URL,
allocates no new URL (nextUrl is unchanged), and only bumps refCount and
lastAccessed of that entry.  Second half: every pool event preserves
at-most-one-entry-per-key (no duplicate keys ever appear), so the pool never
holds two handles for one identity. -/
theorem at_most_one_live_handle :
    (∀ (s : PoolState) (k : String) (now : Nat) (e : PoolEntry),
        findEntry k s.pool = some e →
        (acquireURL k now s).1 = e.url ∧
        (acquireURL k now s).2.nextUrl = s.nextUrl ∧
        findEntry k (acquireURL k now s).2.pool =
          some { url := e.url, refCount := e.refCount + 1, lastAccessed := now }) ∧
    (∀ (s : PoolState) (ev : PoolEvent),
        (s.pool.map Prod.fst).Nodup →
        ((stepPool ev s).pool.map Prod.fst).Nodup) := by
  constructor
  · intro s k now e hf
    simp only [acquireURL, hf]
    exact ⟨trivial, trivial, findEntry_setEntry_self k _ s.pool⟩
  · exact fun s ev h => stepPool_nodup s ev h

/-- Witness for C2: a second acquire of a live identity reuses URL 3 without
allocation, and a fresh acquire preserves key uniqueness. -/
theorem at_most_one_live_handle_witness :
    ((acquireURL "k" 5 ⟨[("k", ⟨3, 1, 0⟩)], 4, []⟩).1 = 3 ∧
     (acquireURL "k" 5 ⟨[("k", ⟨3, 1, 0⟩)], 4, []⟩).2.nextUrl = 4 ∧
     findEntry "k" (acquireURL "k" 5 ⟨[("k", ⟨3, 1, 0⟩)], 4, []⟩).2.pool =
       some ⟨3, 1 + 1, 5⟩) ∧
    ((stepPool (PoolEvent.acquire "j" 1) initPool).pool.map Prod.fst).Nodup := by
  constructor
  · exact at_most_one_live_handle.1 ⟨[("k", ⟨3, 1, 0⟩)], 4, []⟩ "k" 5 ⟨3, 1, 0⟩ (by decide)
  · exact at_most_one_live_handle.2 initPool (PoolEvent.acquire "j" 1) (by decide)

/-- C3 (behavior at the failing input).  A release that takes refCount to
zero at clock 0 schedules the grace callback 50 milliseconds later; when that
callback fires at its nominal clock 50, the 100-millisecond idle re-check
fails (50 is not greater than 100), so the entry is neither revoked nor
rescheduled: the unused handle survives the grace path.  Only a callback
firing more than 100 milliseconds after the release (second conjunct, clock
150) revokes and removes the entry. -/
theorem grace_path_skips_revocation_at_nominal_delay :
    runPool [PoolEvent.acquire "k" 0, PoolEvent.release "k" 0,
        PoolEvent.graceTimer "k" 50] initPool
      = { pool := [("k", { url := 0, refCount := 0, lastAccessed := 0 })],
          nextUrl := 1, revoked := [] } ∧
    runPool [PoolEvent.acquire "k" 0, PoolEvent.release "k" 0,
        PoolEvent.graceTimer "k" 150] initPool
      = { pool := [], nextUrl := 1, revoked := [0] } := by
  exact ⟨by decide, by decide⟩

/-- Counterexample for C4: acquiring once and releasing twice leaves the
entry in the pool with refCount -1, so refCount does go negative. -/
theorem release_drives_refCount_negative :
    findEntry "k" (runPool [PoolEvent.acquire "k" 0, PoolEvent.release "k" 0,
        PoolEvent.release "k" 0] initPool).pool
      = some { url := 0, refCount := -1, lastAccessed := 0 } := by
  decide

/-- C4 amended.  The warn-only guard of releaseURL covers only an identity
with no pool entry: such a release leaves the state entirely unchanged.  A
release for an identity still in the pool decrements refCount
unconditionally — it never revokes and never allocates, but unmatched
releases can therefore drive refCount below zero. -/
theorem release_guard_only_for_missing_entries :
    (∀ (s : PoolState) (k : String) (now : Nat),
        findEntry k s.pool = none → releaseURL k now s = s) ∧
    (∀ (s : PoolState) (k : String) (now : Nat) (e : PoolEntry),
        findEntry k s.pool = some e →
        findEntry k (releaseURL k now s).pool =
          some { url := e.url, refCount := e.refCount - 1, lastAccessed := now } ∧
        (releaseURL k now s).revoked = s.revoked ∧
        (releaseURL k now s).nextUrl = s.nextUrl) := by
  constructor
  · intro s k now hf
    simp [releaseURL, hf]
  · intro s k now e hf
    simp only [releaseURL, hf]
    exact ⟨findEntry_setEntry_self k _ s.pool, trivial, trivial⟩

/-- Witness for the amended C4: an unmatched release of a missing identity is
a no-op on the fresh pool, and a release of a live identity decrements its
refCount in place. -/
theorem release_guard_only_for_missing_entries_witness :
    (releaseURL "x" 9 initPool = initPool) ∧
    (findEntry "k" (releaseURL "k" 9 ⟨[("k", ⟨3, 1, 0⟩)], 4, []⟩).pool =
      some ⟨3, 1 - 1, 9⟩ ∧
     (releaseURL "k" 9 ⟨[("k", ⟨3, 1, 0⟩)], 4, []⟩).revoked = [] ∧
     (releaseURL "k" 9 ⟨[("k", ⟨3, 1, 0⟩)], 4, []⟩).nextUrl = 4) := by
  constructor
  · exact release_guard_only_for_missing_entries.1 initPool "x" 9 rfl
  · exact release_guard_only_for_missing_entries.2 ⟨[("k", ⟨3, 1, 0⟩)], 4, []⟩
      "k" 9 ⟨3, 1, 0⟩ (by decide)

end URLPoolManager

namespace LocalCacheService

lemma removeKeys_nil (entries : List CacheEntry) : removeKeys [] entries = entries := by
  simp [removeKeys]

/-- C5.  LFU/LRU eviction order.  General half: for every store snapshot, the
stable sort used by cleanupCache orders the entries ascending by accessCount
with ties broken by ascending timestamp (oldest last access first) and is a
permutation of the snapshot, and every cleanupCache run deletes exactly a
prefix of that sorted candidate order (the empty prefix when capacity is not
exceeded).  Scenario half: with maxItems 2, caching A then B then C with no
intervening get leaves exactly B and C in the store, A having been evicted as
the least-recently-and-least-frequently used. -/
theorem cleanupCache_evicts_least_used_first :
    (∀ entries : List CacheEntry,
      List.Pairwise (fun a b => a.accessCount < b.accessCount ∨
          (a.accessCount = b.accessCount ∧ a.timestamp ≤ b.timestamp))
        (List.insertionSort entryBefore entries) ∧
      List.Perm (List.insertionSort entryBefore entries) entries ∧
      ∀ maxItems maxCacheSize : Nat, ∃ n,
        cleanupCache maxItems maxCacheSize entries =
          removeKeys ((List.insertionSort entryBefore entries).take n) entries) ∧
    ((cacheFile ⟨"p", "c.jpg", some 3, some 10, none⟩ ⟨10⟩ 3 2 (100 * 1024 * 1024)
        (cacheFile ⟨"p", "b.jpg", some 2, some 10, none⟩ ⟨10⟩ 2 2 (100 * 1024 * 1024)
          (cacheFile ⟨"p", "a.jpg", some 1, some 10, none⟩ ⟨10⟩ 1 2 (100 * 1024 * 1024)
            []).2).2).2 =
      [⟨"p_b.jpg_2_10", ⟨"p", "b.jpg", some 2, some 10, none⟩, ⟨10⟩, "image/jpeg", 2, 1⟩,
       ⟨"p_c.jpg_3_10", ⟨"p", "c.jpg", some 3, some 10, none⟩, ⟨10⟩, "image/jpeg", 3, 1⟩]) := by
  constructor
  · intro entries
    refine ⟨?_, List.perm_insertionSort entryBefore entries, ?_⟩
    · exact (List.sorted_insertionSort entryBefore entries).imp (fun h => h)
    · intro maxItems maxCacheSize
      by_cases hcond : entries.length > maxItems ∨ totalBytes entries > maxCacheSize
      · refine ⟨if totalBytes entries > maxCacheSize then
            evictLoop (List.insertionSort entryBefore entries)
              ((totalBytes entries : Int) - (maxCacheSize * 8) / 10) 0
              (entries.length - maxItems)
          else entries.length - maxItems, ?_⟩
        simp only [cleanupCache, if_pos hcond]
      · refine ⟨0, ?_⟩
        simp only [cleanupCache, if_neg hcond, List.take_zero, removeKeys_nil]
  · decide

/-- C6.  Per-item ceiling.  cacheFile with a file whose byte length exceeds
five megabytes does not persist it: the store is returned unchanged and the
caller receives the transient, caller-managed URL outcome. -/
theorem cacheFile_rejects_oversized (mf : MediaFileM) (buf : ArrayBufferM)
    (now maxItems maxCacheSize : Nat) (store : List CacheEntry)
    (h : buf.byteLength > 5 * 1024 * 1024) :
    cacheFile mf buf now maxItems maxCacheSize store =
      (CacheFileOutcome.transient, store) := by
  simp only [cacheFile, if_pos h]

/-- Witness for C6: a file one byte over the ceiling is served transiently
and the empty store stays empty. -/
theorem cacheFile_rejects_oversized_witness :
    cacheFile ⟨"p", "big.mp4", some 1, some 5242881, none⟩ ⟨5242881⟩ 7 100
        (100 * 1024 * 1024) [] =
      (CacheFileOutcome.transient, []) :=
  cacheFile_rejects_oversized _ _ 7 100 (100 * 1024 * 1024) [] (by norm_num)

end LocalCacheService

namespace MediaNavigationManager

lemma findMediaIndex_lt :
    ∀ (l : List MediaFileM) (m : MediaFileM) (i : Nat),
      findMediaIndex m l = some i → i < l.length := by
  intro l
  induction l with
  | nil => intro m i h; simp [findMediaIndex] at h
  | cons x xs ih =>
    intro m i h
    by_cases hc : x.name = m.name ∧ x.path = m.path
    · simp only [findMediaIndex, if_pos hc, Option.some.injEq] at h
      simp [← h]
    · simp only [findMediaIndex, if_neg hc, Option.map_eq_some'] at h
      obtain ⟨j, hj, hji⟩ := h
      have := ih m j hj
      simp only [List.length_cons]
      omega

/-- C9.  Navigation boundaries.  goToPrevious at cursor 0 returns none and
leaves the state (so the cursor) unchanged; goToNext at the last index
returns none and leaves the state unchanged; setMediaList with a list no
longer than the current cursor resets the cursor to -1; and every operation
of the manager preserves the invariant that the cursor is -1 or a valid index
of the list, so there is no wraparound. -/
theorem navigation_boundaries :
    (∀ s : NavState, s.currentIndex = 0 → goToPrevious s = (none, s)) ∧
    (∀ s : NavState, s.currentIndex = (s.mediaList.length : Int) - 1 →
      goToNext s = (none, s)) ∧
    (∀ (s : NavState) (l : List MediaFileM),
      (l.length : Int) ≤ s.currentIndex → (setMediaList l s).currentIndex = -1) ∧
    (∀ s : NavState, navInv s →
      (∀ l, navInv (setMediaList l s)) ∧
      navInv (goToNext s).2 ∧
      navInv (goToPrevious s).2 ∧
      (∀ m, navInv (setCurrentMedia m s)) ∧
      (∀ i, navInv (setCurrentIndex i s)) ∧
      navInv (reset s)) := by
  refine ⟨?_, ?_, ?_, ?_⟩
  · intro s h
    obtain ⟨ml, c⟩ := s
    simp only at h
    subst h
    simp [goToPrevious, canGoPrevious]
  · intro s h
    obtain ⟨ml, c⟩ := s
    simp only at h
    subst h
    simp [goToNext, canGoNext]
  · intro s l h
    obtain ⟨ml, c⟩ := s
    simp only at h
    simp only [setMediaList]
    split_ifs with hc
    · rfl
    · exfalso
      apply hc
      simpa using h
  · intro s hinv
    obtain ⟨ml, c⟩ := s
    simp only [navInv] at hinv
    refine ⟨?_, ?_, ?_, ?_, ?_, ?_⟩
    · intro l
      simp only [setMediaList, navInv]
      split_ifs with hc
      · exact Or.inl rfl
      · simp only at hc ⊢
        rcases hinv with h | h
        · exact Or.inl h
        · refine Or.inr ⟨h.1, ?_⟩
          simp only [List.length_map] at hc ⊢
          omega
    · simp only [goToNext, navInv]
      split_ifs with hc
      · simp only [canGoNext, Bool.and_eq_true, decide_eq_true_eq] at hc
        simp only
        right
        constructor <;> omega
      · exact hinv
    · simp only [goToPrevious, navInv]
      split_ifs with hc
      · simp only [canGoPrevious, Bool.and_eq_true, decide_eq_true_eq] at hc
        simp only
        right
        constructor <;> omega
      · exact hinv
    · intro m
      simp only [setCurrentMedia]
      rcases hfind : findMediaIndex m ml with _ | i
      · exact hinv
      · have hi := findMediaIndex_lt ml m i hfind
        simp only [navInv]
        right
        constructor
        · positivity
        · exact_mod_cast hi
    · intro i
      simp only [setCurrentIndex]
      split_ifs with hc
      · exact Or.inr hc
      · exact hinv
    · exact Or.inl rfl

/-- Witness for C9 at a one-element list: previous at cursor 0 is a no-op,
next at the last index is a no-op, replacing the list with an empty one
resets the cursor, and the invariant survives an actual forward step. -/
theorem navigation_boundaries_witness :
    goToPrevious ⟨[⟨"p", "n", some 0, some 0, none⟩], 0⟩ =
      (none, ⟨[⟨"p", "n", some 0, some 0, none⟩], 0⟩) ∧
    goToNext ⟨[⟨"p", "n", some 0, some 0, none⟩], 0⟩ =
      (none, ⟨[⟨"p", "n", some 0, some 0, none⟩], 0⟩) ∧
    (setMediaList [] ⟨[⟨"p", "n", some 0, some 0, none⟩], 0⟩).currentIndex = -1 ∧
    navInv (goToNext ⟨[⟨"p", "n", some 0, some 0, none⟩,
      ⟨"q", "m", some 0, some 0, none⟩], 0⟩).2 := by
  refine ⟨?_, ?_, ?_, ?_⟩
  · exact navigation_boundaries.1 _ rfl
  · exact navigation_boundaries.2.1 ⟨[⟨"p", "n", some 0, some 0, none⟩], 0⟩ (by decide)
  · exact navigation_boundaries.2.2.1 ⟨[⟨"p", "n", some 0, some 0, none⟩], 0⟩ [] (by decide)
  · exact (navigation_boundaries.2.2.2 ⟨[⟨"p", "n", some 0, some 0, none⟩,
      ⟨"q", "m", some 0, some 0, none⟩], 0⟩ (by simp [navInv])).2.1

end MediaNavigationManager

/-- C10 (behavior at the failing input).  PriorityQueue.enqueue always
inserts: on every queue it grows the length by one, never a no-op, and in
particular enqueuing the same identity twice leaves two copies of that task
in the queue — the queue itself performs no de-duplication by identity. -/
theorem enqueue_always_inserts :
    (∀ (q : List (PQItem String)) (x : String) (p : Int),
      (PriorityQueue.enqueue x p q).length = q.length + 1) ∧
    PriorityQueue.enqueue "img1" 2
        (PriorityQueue.enqueue "img1" 2 ([] : List (PQItem String))) =
      [⟨"img1", 2⟩, ⟨"img1", 2⟩] := by
  constructor
  · intro q x p
    induction q with
    | nil => rfl
    | cons y ys ih =>
      simp only [PriorityQueue.enqueue]
      split_ifs with hc
      · simp
      · simp [ih]
  · decide
